import Mathlib

/-!
Verification of the output-name prediction logic of the DTI-TK
registration wrappers defined in nipype/interfaces/dtitk/registration.py.
Paths and file names are modelled as lists of characters; the Python
method str.replace is modelled by pyReplace below, and the small part of
os.path that the module calls (abspath, join, normpath) is modelled over
POSIX paths.
-/

set_option autoImplicit false

/-- Shorthand turning a string literal into the list of its characters. -/
def lc (s : String) : List Char := s.toList

/-- Test whether the first list is a leading segment of the second,
mirroring how Python checks for a pattern match at the current scan
position. -/
def startsWith : List Char → List Char → Bool
  | [], _ => true
  | _ :: _, [] => false
  | p :: ps, c :: cs => p == c && startsWith ps cs

/-- Test whether the pattern occurs as a contiguous substring. -/
def occursIn (pat : List Char) : List Char → Bool
  | [] => startsWith pat []
  | c :: cs => startsWith pat (c :: cs) || occursIn pat cs

/-- Fuel-indexed scanner behind pyReplace: at each position either the
pattern matches and is replaced, the scan continuing right after the
replaced segment, or one character is copied.  The fuel argument only
serves termination; pyReplace always supplies enough of it. -/
def replaceAllAux (old new : List Char) : Nat → List Char → List Char
  | _, [] => []
  | 0, c :: cs => c :: cs
  | fuel + 1, c :: cs =>
    if startsWith old (c :: cs) then
      new ++ replaceAllAux old new fuel ((c :: cs).drop old.length)
    else
      c :: replaceAllAux old new fuel cs

/-- Model of the Python method s.replace(old, new) for a nonempty old:
every non-overlapping occurrence of old, scanning from the left, is
replaced by new, and the replacement text itself is not rescanned. -/
def pyReplace (s old new : List Char) : List Char :=
  replaceAllAux old new s.length s

/-- Patterns with no nontrivial self-overlap: no splitting of the pattern
into a proper prefix pair reproduces the pattern.  Such a pattern cannot
occur spanning the boundary between a string that avoids it and an
appended copy of it. -/
def SelfOverlapFree (pat : List Char) : Prop :=
  ∀ L < pat.length, 0 < L → pat ≠ pat.take L ++ pat.take (pat.length - L)

instance (pat : List Char) : Decidable (SelfOverlapFree pat) := by
  unfold SelfOverlapFree
  infer_instance

/-- Concatenation of segments, each followed by one copy of the
separator pattern: the shape of any path that ends in the pattern, split
at the pattern's non-overlapping occurrences, with the segments between
occurrences pattern-free. -/
def chunksWithPat (pat : List Char) : List (List Char) → List Char
  | [] => []
  | s :: rest => s ++ (pat ++ chunksWithPat pat rest)

/-- Errors raised by the modelled Python code. -/
inductive PyError where
  | attributeError : PyError
  | traitError : PyError
  | typeError : PyError
  deriving DecidableEq

/-- Result of running a Python method: a returned value or a raised
error. -/
inductive PyOutcome (α : Type) where
  | ok : α → PyOutcome α
  | err : PyError → PyOutcome α
  deriving DecidableEq

/-- Declared traits of RigidInputSpec (registration.py lines 8-16):
fixed_file, moving_file and similarity_metric.  A value of none models
the nipype Undefined value of a trait that was never assigned. -/
structure RigidInputSpec where
  fixed_file : Option (List Char)
  moving_file : Option (List Char)
  similarity_metric : Option (List Char)
  deriving DecidableEq

/-- RigidOutputSpec (registration.py lines 19-21). -/
structure RigidOutputSpec where
  out_file : Option (List Char)
  out_file_xfm : Option (List Char)
  deriving DecidableEq

/-- Trait lookup on RigidInputSpec by attribute name.  The class declares
exactly the traits fixed_file, moving_file and similarity_metric, so
reading any other attribute name raises AttributeError, modelled as
none. -/
def RigidInputSpec.getattr (s : RigidInputSpec) (name : List Char) :
    Option (Option (List Char)) :=
  if name = lc (r"fixed_file") then some s.fixed_file
  else if name = lc (r"moving_file") then some s.moving_file
  else if name = lc (r"similarity_metric") then some s.similarity_metric
  else none

/-- RigidTask._list_outputs (registration.py lines 42-47).  The method
reads self.inputs.in_file, which is not a declared trait of
RigidInputSpec, so the attribute access raises AttributeError; had the
attribute held a string the method would return the two replace results.
Reading a declared but never assigned trait yields Undefined, whose
missing replace method also raises AttributeError.  The first component
of the result is the final state of the inputs, which the method never
writes. -/
def RigidTask.listOutputs (inp : RigidInputSpec) :
    RigidInputSpec × PyOutcome RigidOutputSpec :=
  (inp,
    match RigidInputSpec.getattr inp (lc (r"in_file")) with
    | some (some s) =>
        PyOutcome.ok
          { out_file := some (pyReplace s (lc (r".nii.gz")) (lc (r"_aff.nii.gz")))
            out_file_xfm := some (pyReplace s (lc (r".nii.gz")) (lc (r".aff"))) }
    | some none => PyOutcome.err PyError.attributeError
    | none => PyOutcome.err PyError.attributeError)

/-- Declared traits of AffineInputSpec (registration.py lines 50-62). -/
structure AffineInputSpec where
  in_fixed_tensor : Option (List Char)
  in_moving_txt : Option (List Char)
  in_similarity_metric : Option (List Char)
  in_usetrans_flag : Option (List Char)
  deriving DecidableEq

/-- AffineOutputSpec (registration.py lines 65-67). -/
structure AffineOutputSpec where
  out_file : Option (List Char)
  out_file_xfm : Option (List Char)
  deriving DecidableEq

/-- AffineTask._list_outputs (registration.py lines 89-95): both output
names come from self.inputs.in_fixed_tensor by replace; when that trait
is still Undefined the call to its replace method raises
AttributeError. -/
def AffineTask.listOutputs (inp : AffineInputSpec) :
    AffineInputSpec × PyOutcome AffineOutputSpec :=
  (inp,
    match inp.in_fixed_tensor with
    | some s =>
        PyOutcome.ok
          { out_file := some (pyReplace s (lc (r".nii.gz")) (lc (r"_aff.nii.gz")))
            out_file_xfm := some (pyReplace s (lc (r".nii.gz")) (lc (r".aff"))) }
    | none => PyOutcome.err PyError.attributeError)

/-- Declared traits of DiffeoInputSpec (registration.py lines 98-108). -/
structure DiffeoInputSpec where
  in_fixed_tensor : Option (List Char)
  in_moving_txt : Option (List Char)
  in_mask : Option (List Char)
  in_numbers : Option (List Char)
  deriving DecidableEq

/-- DiffeoOutputSpec (registration.py lines 111-113). -/
structure DiffeoOutputSpec where
  out_file : Option (List Char)
  out_file_xfm : Option (List Char)
  deriving DecidableEq

/-- DiffeoTask._list_outputs (registration.py lines 135-141): both output
names come from self.inputs.in_fixed_tensor by replace. -/
def DiffeoTask.listOutputs (inp : DiffeoInputSpec) :
    DiffeoInputSpec × PyOutcome DiffeoOutputSpec :=
  (inp,
    match inp.in_fixed_tensor with
    | some s =>
        PyOutcome.ok
          { out_file := some (pyReplace s (lc (r".nii.gz")) (lc (r"_aff_diffeo.nii.gz")))
            out_file_xfm := some (pyReplace s (lc (r".nii.gz")) (lc (r"_aff_diffeo.df.nii.gz"))) }
    | none => PyOutcome.err PyError.attributeError)

/-- Declared traits of ComposeXfmInputSpec (registration.py lines
144-151). -/
structure ComposeXfmInputSpec where
  in_df : Option (List Char)
  in_aff : Option (List Char)
  out_path : Option (List Char)
  deriving DecidableEq

/-- ComposeXfmOutputSpec (registration.py lines 154-155). -/
structure ComposeXfmOutputSpec where
  out_file : Option (List Char)
  deriving DecidableEq

/-- ComposeXfmTask._list_outputs (registration.py lines 175-179): the
output name comes from self.inputs.in_df by replace. -/
def ComposeXfmTask.listOutputs (inp : ComposeXfmInputSpec) :
    ComposeXfmInputSpec × PyOutcome ComposeXfmOutputSpec :=
  (inp,
    match inp.in_df with
    | some s =>
        PyOutcome.ok
          { out_file := some (pyReplace s (lc (r".df.nii.gz")) (lc (r"_combo.df.nii.gz"))) }
    | none => PyOutcome.err PyError.attributeError)

/-- Modelled from the spec: the name_source with name_template mechanism
of the workflow-engine base class is an external collaborator whose code
is not part of this file's repository slice; following the declaration on
registration.py lines 149-151, the default name for out_path is the
template, with its percent-s slot filled by the name_source input
in_df. -/
def composeXfmTemplateName (in_df : List Char) : List Char :=
  in_df ++ lc (r"_comboaff.nii.gz")

/-- Allowed values of the similarity-metric Enum traits, declared on
registration.py lines 14-16 for RigidInputSpec.similarity_metric and
lines 57-59 for AffineInputSpec.in_similarity_metric. -/
def simEnumValues : List (List Char) :=
  [lc (r"EDS"), lc (r"GDS"), lc (r"DDS"), lc (r"NMI")]

/-- Assignment to the Enum trait RigidInputSpec.similarity_metric,
modelling the documented behaviour of a traits Enum: a listed value is
stored, any other value raises TraitError and the spec keeps its previous
state. -/
def RigidInputSpec.setSimilarityMetric (inp : RigidInputSpec) (v : List Char) :
    RigidInputSpec × Option PyError :=
  if v ∈ simEnumValues then
    ({ inp with similarity_metric := some v }, none)
  else
    (inp, some PyError.traitError)

/-- Assignment to the Enum trait AffineInputSpec.in_similarity_metric,
modelled like RigidInputSpec.setSimilarityMetric. -/
def AffineInputSpec.setInSimilarityMetric (inp : AffineInputSpec) (v : List Char) :
    AffineInputSpec × Option PyError :=
  if v ∈ simEnumValues then
    ({ inp with in_similarity_metric := some v }, none)
  else
    (inp, some PyError.traitError)

/-- POSIX path separator. -/
def slashChar : Char := '/'

/-- Test for an absolute POSIX path, mirroring os.path.isabs. -/
def isAbs : List Char → Bool
  | c :: _ => c == slashChar
  | [] => false

/-- Model of the Python method path.split on the separator character: the
maximal separator-free segments, keeping empty segments, so an empty path
yields one empty segment. -/
def splitSlash : List Char → List (List Char)
  | [] => [[]]
  | c :: cs =>
    if c == slashChar then [] :: splitSlash cs
    else
      match splitSlash cs with
      | [] => [[c]]
      | p :: ps => (c :: p) :: ps

/-- Head test used by the normpath loop: whether the most recently kept
component is a dot-dot component.  The accumulator is kept in reverse
order, its head being the component Python reads as the last entry. -/
def accHeadDotdot : List (List Char) → Bool
  | x :: _ => x == lc (r"..")
  | [] => false

/-- One iteration of the posixpath.normpath loop on a single component:
empty and single-dot components are dropped; a dot-dot component is kept
when the path is relative and nothing was kept yet or when the last kept
component is itself a dot-dot, and otherwise pops the last kept component
when there is one and is dropped at the root.  The accumulator is kept in
reverse order. -/
def normStep (rooted : Bool) (acc : List (List Char)) (c : List Char) :
    List (List Char) :=
  if c == [] || c == lc (r".") then acc
  else if !(c == lc (r"..")) || (!rooted && acc.isEmpty) || accHeadDotdot acc then
    c :: acc
  else
    match acc with
    | _ :: acc2 => acc2
    | [] => acc

/-- Loop of posixpath.normpath over the list of path components. -/
def normFold (rooted : Bool) : List (List Char) → List (List Char) → List (List Char)
  | acc, [] => acc
  | acc, c :: rest => normFold rooted (normStep rooted acc c) rest

/-- Joining path components with single separators, as the Python
expression of joining a component list with the separator. -/
def intercalateSlash : List (List Char) → List Char
  | [] => []
  | [x] => x
  | x :: y :: rest => x ++ slashChar :: intercalateSlash (y :: rest)

/-- Number of leading separators that posixpath.normpath preserves: two
when the path starts with exactly two separators, one when it starts with
one or with at least three, none for a relative path. -/
def initialSlashes (p : List Char) : Nat :=
  if startsWith (lc (r"//")) p && !startsWith (lc (r"///")) p then 2
  else if isAbs p then 1
  else 0

/-- Reassembled body of a normalised path: the kept components joined by
separators behind the preserved leading separators. -/
def normBody (p : List Char) : List Char :=
  List.replicate (initialSlashes p) slashChar ++
    intercalateSlash ((normFold (isAbs p) [] (splitSlash p)).reverse)

/-- Model of posixpath.normpath: split into components, run the
normalisation loop, and reassemble the kept components behind the
preserved leading separators; an empty result denotes the current
directory. -/
def normpath (p : List Char) : List Char :=
  if p = [] then lc (r".")
  else if normBody p = [] then lc (r".")
  else normBody p

/-- Model of posixpath.join for two arguments: an absolute second path
replaces the first, otherwise the second is appended behind a single
separator unless the first is empty or already ends in one. -/
def joinPath (a b : List Char) : List Char :=
  if isAbs b then b
  else if a = [] then b
  else if a.getLast? = some slashChar then a ++ b
  else a ++ slashChar :: b

/-- Model of posixpath.abspath with the current working directory passed
explicitly: a relative path is joined behind the working directory, and
the result is normalised. -/
def abspath (cwd p : List Char) : List Char :=
  if isAbs p then normpath p else normpath (joinPath cwd p)

/-- Separator-free character lists: well-formedness of a single path
component. -/
def noSlash (s : List Char) : Bool := s.all fun c => !(c == slashChar)

/-- Components that the normpath loop keeps verbatim: nonempty and
neither the single-dot nor the dot-dot component. -/
def goodComp (c : List Char) : Bool :=
  !(c == ([] : List Char)) && !(c == lc (r".")) && !(c == lc (r".."))

/-- Model of posixpath.basename: the part of the path after its last
separator, the last component of the separator split. -/
def basename (p : List Char) : List Char := (splitSlash p).getLastD []

/-- Model of posixpath.splitext on a separator-free base name: the
extension starts at the last dot, except that a name consisting of an
extension-less run of leading dots has no extension. -/
def splitextP (b : List Char) : List Char × List Char :=
  match b.reverse.findIdx? (fun c => c == ('.' : Char)) with
  | none => (b, [])
  | some j =>
    let i := b.length - 1 - j
    if (b.take i).all (fun c => c == ('.' : Char)) then (b, [])
    else (b.take i, b.drop i)

/-- Modelled from the spec: nipype.utils.filemanip.split_filename belongs
to this repository but lies outside the slice under src; following the
spec's description of output-path prediction by suffix manipulation, it
splits a base name into stem and extension, treating the composite
extension .nii.gz as a single extension and otherwise splitting at the
last dot. -/
def splitExtSpecial (b : List Char) : List Char × List Char :=
  if startsWith (lc (r".nii.gz")).reverse b.reverse
      && (lc (r".nii.gz")).length < b.length then
    (b.take (b.length - (lc (r".nii.gz")).length),
      b.drop (b.length - (lc (r".nii.gz")).length))
  else splitextP b

/-- Base name of fname with the given suffix inserted between its stem
and its extension. -/
def presuffixedName (fname suffix : List Char) : List Char :=
  (splitExtSpecial (basename fname)).1 ++ suffix ++ (splitExtSpecial (basename fname)).2

/-- Modelled from the spec: nipype.utils.filemanip.fname_presuffix, as
called with an explicit newpath, belongs to this repository but lies
outside the slice under src; it drops the directory of fname, inserts the
suffix between the stem and the extension of the base name, and places
the result under newpath. -/
def fnamePresuffix (fname suffix newpath : List Char) : List Char :=
  joinPath newpath (presuffixedName fname suffix)

/-- Declared traits of diffeoSymTensor3DVolInputSpec (registration.py
lines 182-191). -/
structure diffeoSymTensor3DVolInputSpec where
  in_tensor : Option (List Char)
  in_xfm : Option (List Char)
  in_target : Option (List Char)
  out_path : Option (List Char)
  deriving DecidableEq

/-- diffeoSymTensor3DVolOutputSpec (registration.py lines 194-195). -/
structure diffeoSymTensor3DVolOutputSpec where
  out_file : Option (List Char)
  deriving DecidableEq

/-- diffeoSymTensor3DVolTask._list_outputs (registration.py lines
216-219): the out_path input is returned verbatim, with no call to
os.path.abspath, and an Undefined out_path is passed through as an
Undefined output value. -/
def diffeoSymTensor3DVolTask.listOutputs (inp : diffeoSymTensor3DVolInputSpec) :
    diffeoSymTensor3DVolInputSpec × PyOutcome diffeoSymTensor3DVolOutputSpec :=
  (inp, PyOutcome.ok { out_file := inp.out_path })

/-- Declared traits of affSymTensor3DVolInputSpec (registration.py lines
222-231). -/
structure affSymTensor3DVolInputSpec where
  in_tensor : Option (List Char)
  in_xfm : Option (List Char)
  in_target : Option (List Char)
  out_path : Option (List Char)
  deriving DecidableEq

/-- affSymTensor3DVolOutputSpec (registration.py lines 234-235). -/
structure affSymTensor3DVolOutputSpec where
  out_file : Option (List Char)
  deriving DecidableEq

/-- affSymTensor3DVolTask._list_outputs (registration.py lines 255-258):
the output is os.path.abspath of the out_path input; calling
os.path.abspath on the Undefined value raises. -/
def affSymTensor3DVolTask.listOutputs (cwd : List Char)
    (inp : affSymTensor3DVolInputSpec) :
    affSymTensor3DVolInputSpec × PyOutcome affSymTensor3DVolOutputSpec :=
  (inp,
    match inp.out_path with
    | some p => PyOutcome.ok { out_file := some (abspath cwd p) }
    | none => PyOutcome.err PyError.typeError)

/-- Declared traits of affScalarVolInputSpec (registration.py lines
261-269). -/
structure affScalarVolInputSpec where
  in_volume : Option (List Char)
  in_xfm : Option (List Char)
  in_target : Option (List Char)
  out_path : Option (List Char)
  deriving DecidableEq

/-- affScalarVolOutputSpec (registration.py lines 272-273). -/
structure affScalarVolOutputSpec where
  out_file : Option (List Char)
  deriving DecidableEq

/-- affScalarVolTask._list_outputs (registration.py lines 293-296): the
output is os.path.abspath of the out_path input. -/
def affScalarVolTask.listOutputs (cwd : List Char)
    (inp : affScalarVolInputSpec) :
    affScalarVolInputSpec × PyOutcome affScalarVolOutputSpec :=
  (inp,
    match inp.out_path with
    | some p => PyOutcome.ok { out_file := some (abspath cwd p) }
    | none => PyOutcome.err PyError.typeError)

/-- Declared traits of diffeoScalarVolInputSpec (registration.py lines
299-316). -/
structure diffeoScalarVolInputSpec where
  in_volume : Option (List Char)
  in_xfm : Option (List Char)
  in_target : Option (List Char)
  out_path : Option (List Char)
  in_vsize : Option (List Char)
  in_flip : Option (List Char)
  in_type : Option (List Char)
  in_interp : Option (List Char)
  deriving DecidableEq

/-- diffeoScalarVolOutputSpec (registration.py lines 319-320). -/
structure diffeoScalarVolOutputSpec where
  out_file : Option (List Char)
  deriving DecidableEq

/-- Default output path that diffeoScalarVolTask._list_outputs computes
with fname_presuffix when out_path is Undefined (registration.py lines
344-346): the base name of in_volume with the suffix _diffeoxfmd
inserted, placed under os.path.abspath of the current directory. -/
def dsvDefaultOut (cwd v : List Char) : List Char :=
  fnamePresuffix v (lc (r"_diffeoxfmd")) (abspath cwd (lc (r".")))

/-- diffeoScalarVolTask._list_outputs (registration.py lines 341-348):
when out_path is Undefined the method first assigns the computed default
to self.inputs.out_path, mutating its own inputs, and then returns
os.path.abspath of out_path.  When in_volume is also Undefined,
fname_presuffix raises before the assignment, so the inputs stay
unchanged. -/
def diffeoScalarVolTask.listOutputs (cwd : List Char)
    (inp : diffeoScalarVolInputSpec) :
    diffeoScalarVolInputSpec × PyOutcome diffeoScalarVolOutputSpec :=
  match inp.out_path with
  | some p => (inp, PyOutcome.ok { out_file := some (abspath cwd p) })
  | none =>
    match inp.in_volume with
    | none => (inp, PyOutcome.err PyError.typeError)
    | some v =>
      ({ inp with out_path := some (dsvDefaultOut cwd v) },
        PyOutcome.ok { out_file := some (abspath cwd (dsvDefaultOut cwd v)) })

example :
    pyReplace (lc (r"x.nii.gz.nii.gz")) (lc (r".nii.gz")) (lc (r".aff")) =
      lc (r"x.aff.aff") := by decide

example : normpath (lc (r"/tmp/a/../b/./c")) = lc (r"/tmp/b/c") := by decide

example : normpath (lc (r"//x//y/")) = lc (r"//x/y") := by decide

example : abspath (lc (r"/tmp")) (lc (r"x.nii")) = lc (r"/tmp/x.nii") := by decide

example : abspath (lc (r"/tmp")) (lc (r".")) = lc (r"/tmp") := by decide

example : splitExtSpecial (lc (r"fa.nii.gz")) = (lc (r"fa"), lc (r".nii.gz")) := by
  decide

example : splitextP (lc (r".bashrc")) = (lc (r".bashrc"), lc (r"")) := by decide

example :
    dsvDefaultOut (lc (r"/work")) (lc (r"dir/fa.nii.gz")) =
      lc (r"/work/fa_diffeoxfmd.nii.gz") := by decide

example :
    pyReplace (lc (r"diffusion.nii")) (lc (r".nii.gz")) (lc (r".aff")) =
      lc (r"diffusion.nii")  := by decide

example : SelfOverlapFree (lc (r".nii.gz")) := by decide

example : SelfOverlapFree (lc (r".df.nii.gz")) := by decide

example :
    (RigidTask.listOutputs ⟨some (lc (r"diffusion.nii")), some (lc (r"diffusion.nii")),
      some (lc (r"EDS"))⟩).2 = PyOutcome.err PyError.attributeError := by decide

theorem startsWith_iff (pat s : List Char) :
    startsWith pat s = true ↔ ∃ t, s = pat ++ t := by
  induction pat generalizing s with
  | nil =>
    constructor
    · intro _; exact ⟨s, by simp⟩
    · intro _; rfl
  | cons p ps ih =>
    cases s with
    | nil =>
      constructor
      · intro h; simp [startsWith] at h
      · rintro ⟨t, ht⟩; simp at ht
    | cons c cs =>
      constructor
      · intro h
        rw [show startsWith (p :: ps) (c :: cs) = (p == c && startsWith ps cs) from rfl]
          at h
        obtain ⟨h1, h2⟩ : (p == c) = true ∧ startsWith ps cs = true := by
          simpa using h
        obtain ⟨t, rfl⟩ := (ih cs).mp h2
        have hpc : p = c := by simpa using h1
        subst hpc
        exact ⟨t, rfl⟩
      · rintro ⟨t, ht⟩
        injection ht with h1 h2
        subst h1
        subst h2
        simp only [startsWith, beq_self_eq_true, Bool.true_and]
        exact (ih _).mpr ⟨t, rfl⟩

theorem startsWith_append (pat t : List Char) : startsWith pat (pat ++ t) = true :=
  (startsWith_iff pat (pat ++ t)).mpr ⟨t, rfl⟩

theorem occursIn_cons_false {pat : List Char} {c : Char} {cs : List Char}
    (h : occursIn pat (c :: cs) = false) :
    startsWith pat (c :: cs) = false ∧ occursIn pat cs = false := by
  rw [show occursIn pat (c :: cs) = (startsWith pat (c :: cs) || occursIn pat cs)
    from rfl] at h
  exact Bool.or_eq_false_iff.mp h

theorem one_le_length_of_ne_nil {old : List Char} (hold : old ≠ []) :
    1 ≤ old.length := by
  cases old with
  | nil => exact absurd rfl hold
  | cons _ _ => simp

theorem replaceAllAux_irrel (old new : List Char) (hold : old ≠ []) :
    ∀ n s fuel1 fuel2, s.length ≤ n → s.length ≤ fuel1 → s.length ≤ fuel2 →
      replaceAllAux old new fuel1 s = replaceAllAux old new fuel2 s := by
  intro n
  induction n with
  | zero =>
    intro s fuel1 fuel2 hn _ _
    have hs : s = [] := List.eq_nil_of_length_eq_zero (Nat.le_zero.mp hn)
    subst hs
    simp [replaceAllAux]
  | succ m ih =>
    intro s fuel1 fuel2 hn h1 h2
    cases s with
    | nil => simp [replaceAllAux]
    | cons c cs =>
      cases fuel1 with
      | zero => exact absurd h1 (by simp only [List.length_cons]; omega)
      | succ g1 =>
        cases fuel2 with
        | zero => exact absurd h2 (by simp only [List.length_cons]; omega)
        | succ g2 =>
          have hmn : cs.length ≤ m := by
            simp only [List.length_cons] at hn; omega
          have hg1 : cs.length ≤ g1 := by
            simp only [List.length_cons] at h1; omega
          have hg2 : cs.length ≤ g2 := by
            simp only [List.length_cons] at h2; omega
          by_cases hsw : startsWith old (c :: cs) = true
          · have hd : ((c :: cs).drop old.length).length ≤ cs.length := by
              rw [List.length_drop]
              have h1l := one_le_length_of_ne_nil hold
              simp only [List.length_cons]
              omega
            simp only [replaceAllAux, hsw, if_true]
            congr 1
            exact ih _ _ _ (le_trans hd hmn) (le_trans hd hg1) (le_trans hd hg2)
          · have hsw' : startsWith old (c :: cs) = false :=
              Bool.eq_false_iff.mpr hsw
            simp only [replaceAllAux, hsw', Bool.false_eq_true, if_false]
            congr 1
            exact ih _ _ _ hmn hg1 hg2

theorem pyReplace_nil (old new : List Char) : pyReplace [] old new = [] := rfl

theorem pyReplace_cons_pos {old : List Char} (new : List Char) {c : Char}
    {cs : List Char} (hold : old ≠ []) (hsw : startsWith old (c :: cs) = true) :
    pyReplace (c :: cs) old new =
      new ++ pyReplace ((c :: cs).drop old.length) old new := by
  have hd : ((c :: cs).drop old.length).length ≤ cs.length := by
    rw [List.length_drop]
    have h1l := one_le_length_of_ne_nil hold
    simp only [List.length_cons]
    omega
  show replaceAllAux old new (c :: cs).length (c :: cs) = _
  simp only [List.length_cons, replaceAllAux, hsw, if_true]
  congr 1
  exact replaceAllAux_irrel old new hold cs.length _ _ _ hd hd (le_refl _)

theorem pyReplace_cons_neg {old : List Char} (new : List Char) {c : Char}
    {cs : List Char} (hsw : startsWith old (c :: cs) = false) :
    pyReplace (c :: cs) old new = c :: pyReplace cs old new := by
  show replaceAllAux old new (c :: cs).length (c :: cs) = _
  simp only [List.length_cons, replaceAllAux, hsw, Bool.false_eq_true, if_false]
  rfl

theorem pyReplace_id_of_not_occurs {pat : List Char} (new : List Char) :
    ∀ s, occursIn pat s = false → pyReplace s pat new = s := by
  intro s
  induction s with
  | nil => intro _; rfl
  | cons c cs ih =>
    intro h
    obtain ⟨h1, h2⟩ := occursIn_cons_false h
    rw [pyReplace_cons_neg new h1, ih h2]

theorem pyReplace_boundary {pat : List Char} (new rest : List Char)
    (hov : SelfOverlapFree pat) (hold : pat ≠ []) :
    ∀ s1, occursIn pat s1 = false →
      pyReplace (s1 ++ (pat ++ rest)) pat new =
        s1 ++ (new ++ pyReplace rest pat new) := by
  intro s1
  induction s1 with
  | nil =>
    intro _
    simp only [List.nil_append]
    cases pat with
    | nil => exact absurd rfl hold
    | cons p ps =>
      rw [show (p :: ps) ++ rest = p :: (ps ++ rest) from rfl]
      rw [pyReplace_cons_pos new hold
        (by simpa using startsWith_append (p :: ps) rest)]
      rw [show (p :: (ps ++ rest)) = (p :: ps) ++ rest from rfl, List.drop_left]
  | cons c t ih =>
    intro h
    obtain ⟨h1, h2⟩ := occursIn_cons_false h
    have hsw : startsWith pat (c :: (t ++ (pat ++ rest))) = false := by
      by_contra hc
      have hc' : startsWith pat ((c :: t) ++ (pat ++ rest)) = true := by
        cases hb : startsWith pat (c :: (t ++ (pat ++ rest))) with
        | false => exact absurd hb hc
        | true => exact hb
      obtain ⟨u, hu⟩ := (startsWith_iff _ _).mp hc'
      rcases List.append_eq_append_iff.mp hu with ⟨a2, ha1, ha2⟩ | ⟨c2, hc1, hc2⟩
      · cases a2 with
        | nil =>
          rw [List.append_nil] at ha1
          exact absurd (by rw [ha1]; exact (startsWith_iff _ _).mpr ⟨[], by simp⟩) 
            (Bool.eq_false_iff.mp h1)
        | cons a a2t =>
          have hL1 : c :: t = pat.take (c :: t).length := by
            rw [ha1, List.take_left]
          have hL2 : (a :: a2t) = pat.take (pat.length - (c :: t).length) := by
            have hlen : (a :: a2t).length = pat.length - (c :: t).length := by
              rw [ha1]
              simp only [List.length_append, List.length_cons]
              omega
            have hpr : pat ++ rest = (a :: a2t) ++ u := ha2
            have h3 : ((a :: a2t) ++ u).take (a :: a2t).length = a :: a2t :=
              List.take_left _ _
            rw [← hpr] at h3
            rw [← hlen]
            rw [← h3]
            rw [List.take_append_eq_append_take]
            have hle : (a :: a2t).length ≤ pat.length := by
              rw [ha1]
              simp only [List.length_append, List.length_cons]
              omega
            rw [Nat.sub_eq_zero_of_le hle]
            simp
          have hlt : (c :: t).length < pat.length := by
            rw [ha1]
            simp only [List.length_append, List.length_cons]
            omega
          have h0 : 0 < (c :: t).length := by simp
          exact hov (c :: t).length hlt h0 (by rw [← hL1, ← hL2]; exact ha1)
      · exact absurd ((startsWith_iff _ _).mpr ⟨c2, hc1⟩)
          (Bool.eq_false_iff.mp h1)
    rw [show (c :: t) ++ (pat ++ rest) = c :: (t ++ (pat ++ rest)) from rfl]
    rw [pyReplace_cons_neg new hsw, ih h2]
    rfl

theorem pyReplace_of_suffix {pat : List Char} (new base : List Char)
    (hov : SelfOverlapFree pat) (hold : pat ≠ [])
    (h : occursIn pat base = false) :
    pyReplace (base ++ pat) pat new = base ++ new := by
  have hb := pyReplace_boundary new [] hov hold base h
  rw [List.append_nil] at hb
  rw [hb, pyReplace_nil, List.append_nil]

theorem startsWith_extend {pat v w : List Char}
    (hv : startsWith pat v = true) (hp : ∃ x, w = v ++ x) :
    startsWith pat w = true := by
  obtain ⟨y, rfl⟩ := (startsWith_iff pat v).mp hv
  obtain ⟨x, rfl⟩ := hp
  rw [List.append_assoc]
  exact startsWith_append pat (y ++ x)

theorem occursIn_first_split {pat : List Char} (hold : pat ≠ []) :
    ∀ u, occursIn pat u = true →
      ∃ s0 u2, u = s0 ++ (pat ++ u2) ∧ occursIn pat s0 = false := by
  intro u
  induction u with
  | nil =>
    intro h
    exfalso
    cases pat with
    | nil => exact hold rfl
    | cons p ps => simp [occursIn, startsWith] at h
  | cons c u2 ih =>
    intro h
    by_cases hsw : startsWith pat (c :: u2) = true
    · obtain ⟨x, hx⟩ := (startsWith_iff _ _).mp hsw
      refine ⟨[], x, by rw [hx]; rfl, ?_⟩
      cases pat with
      | nil => exact absurd rfl hold
      | cons p ps => rfl
    · have hsw' : startsWith pat (c :: u2) = false := Bool.eq_false_iff.mpr hsw
      have h2 : occursIn pat u2 = true := by
        have he : occursIn pat (c :: u2) =
            (startsWith pat (c :: u2) || occursIn pat u2) := rfl
        rw [he, hsw'] at h
        simpa using h
      obtain ⟨s0, u3, he, hfree⟩ := ih h2
      refine ⟨c :: s0, u3, by rw [he]; rfl, ?_⟩
      have hne : startsWith pat (c :: s0) = false := by
        cases hb : startsWith pat (c :: s0) with
        | false => rfl
        | true =>
          exfalso
          exact hsw (startsWith_extend hb ⟨pat ++ u3, by rw [he]; rfl⟩)
      have he2 : occursIn pat (c :: s0) =
          (startsWith pat (c :: s0) || occursIn pat s0) := rfl
      rw [he2, hne, hfree]
      rfl

theorem decompose_with_suffix {pat : List Char} (hold : pat ≠ []) :
    ∀ n t, t.length ≤ n → (∃ b, t = b ++ pat) →
      ∃ ss : List (List Char), ss ≠ [] ∧
        (∀ s ∈ ss, occursIn pat s = false) ∧ t = chunksWithPat pat ss := by
  intro n
  induction n with
  | zero =>
    intro t hlen hb
    obtain ⟨b, rfl⟩ := hb
    exfalso
    have h1 := one_le_length_of_ne_nil hold
    rw [List.length_append] at hlen
    omega
  | succ m ih =>
    intro t hlen hb
    obtain ⟨b, rfl⟩ := hb
    by_cases hocc : occursIn pat b = true
    · obtain ⟨s0, b2, he, hfree⟩ := occursIn_first_split hold b hocc
      have hlen' : (b2 ++ pat).length ≤ m := by
        have h1 := one_le_length_of_ne_nil hold
        have h3 : b.length = s0.length + (pat.length + b2.length) := by
          rw [he]; simp
        rw [List.length_append] at hlen ⊢
        omega
      obtain ⟨ss', hne, hfree', heq⟩ := ih (b2 ++ pat) hlen' ⟨b2, rfl⟩
      refine ⟨s0 :: ss', by simp, ?_, ?_⟩
      · intro s hs
        rcases List.mem_cons.mp hs with rfl | hs2
        · exact hfree
        · exact hfree' s hs2
      · have hc : chunksWithPat pat (s0 :: ss') =
            s0 ++ (pat ++ chunksWithPat pat ss') := rfl
        rw [hc, ← heq, he]
        simp [List.append_assoc]
    · refine ⟨[b], by simp, ?_, ?_⟩
      · intro s hs
        rw [List.mem_singleton] at hs
        subst hs
        exact Bool.eq_false_iff.mpr hocc
      · have hc : chunksWithPat pat [b] = b ++ (pat ++ []) := rfl
        rw [hc, List.append_nil]

theorem pyReplace_chunks {pat : List Char} (rep : List Char)
    (hov : SelfOverlapFree pat) (hold : pat ≠ []) :
    ∀ ss : List (List Char), (∀ s ∈ ss, occursIn pat s = false) →
      pyReplace (chunksWithPat pat ss) pat rep = chunksWithPat rep ss := by
  intro ss
  induction ss with
  | nil => intro _; rfl
  | cons s rest ih =>
    intro hfree
    have hc : chunksWithPat pat (s :: rest) =
        s ++ (pat ++ chunksWithPat pat rest) := rfl
    rw [hc, pyReplace_boundary rep (chunksWithPat pat rest) hov hold s
        (hfree s (List.mem_cons_self s rest)),
      ih (fun x hx => hfree x (List.mem_cons_of_mem s hx))]
    rfl

/-- C1: contrary to the claim, for every RigidTask whose declared inputs
fixed_file, moving_file and similarity_metric are all set, _list_outputs
raises AttributeError, because registration.py line 44 reads the
undeclared input attribute in_file instead of a declared input. -/
theorem rigid_list_outputs_attribute_error
    (inp : RigidInputSpec) (f m sm : List Char)
    (_hf : inp.fixed_file = some f) (_hm : inp.moving_file = some m)
    (_hs : inp.similarity_metric = some sm) :
    (RigidTask.listOutputs inp).2 = PyOutcome.err PyError.attributeError := rfl

theorem rigid_list_outputs_attribute_error_witness :
    (RigidTask.listOutputs ⟨some (lc (r"diffusion.nii")),
        some (lc (r"diffusion.nii")), some (lc (r"EDS"))⟩).2 =
      PyOutcome.err PyError.attributeError :=
  rigid_list_outputs_attribute_error _ (lc (r"diffusion.nii"))
    (lc (r"diffusion.nii")) (lc (r"EDS")) rfl rfl rfl

/-- C5: for every AffineTask input in_fixed_tensor of the form base
followed by the suffix .nii.gz, where base contains no occurrence of
.nii.gz, _list_outputs returns out_file_xfm equal to base followed by
.aff and out_file equal to base followed by _aff.nii.gz (registration.py
lines 89-95). -/
theorem affine_outputs_on_niigz_suffix
    (inp : AffineInputSpec) (base : List Char)
    (hb : occursIn (lc (r".nii.gz")) base = false)
    (hin : inp.in_fixed_tensor = some (base ++ lc (r".nii.gz"))) :
    (AffineTask.listOutputs inp).2 =
      PyOutcome.ok
        { out_file := some (base ++ lc (r"_aff.nii.gz"))
          out_file_xfm := some (base ++ lc (r".aff")) } := by
  unfold AffineTask.listOutputs
  simp only [hin]
  rw [pyReplace_of_suffix (lc (r"_aff.nii.gz")) base (by decide) (by decide) hb,
    pyReplace_of_suffix (lc (r".aff")) base (by decide) (by decide) hb]

theorem affine_outputs_on_niigz_suffix_witness :
    (AffineTask.listOutputs ⟨some (lc (r"diffusion") ++ lc (r".nii.gz")),
        none, none, none⟩).2 =
      PyOutcome.ok
        { out_file := some (lc (r"diffusion") ++ lc (r"_aff.nii.gz"))
          out_file_xfm := some (lc (r"diffusion") ++ lc (r".aff")) } :=
  affine_outputs_on_niigz_suffix _ (lc (r"diffusion")) (by decide) rfl

/-- C6: for every DiffeoTask input in_fixed_tensor of the form base
followed by the suffix .nii.gz, where base contains no occurrence of
.nii.gz, _list_outputs returns out_file_xfm equal to base followed by
_aff_diffeo.df.nii.gz and out_file equal to base followed by
_aff_diffeo.nii.gz (registration.py lines 135-141). -/
theorem diffeo_outputs_on_niigz_suffix
    (inp : DiffeoInputSpec) (base : List Char)
    (hb : occursIn (lc (r".nii.gz")) base = false)
    (hin : inp.in_fixed_tensor = some (base ++ lc (r".nii.gz"))) :
    (DiffeoTask.listOutputs inp).2 =
      PyOutcome.ok
        { out_file := some (base ++ lc (r"_aff_diffeo.nii.gz"))
          out_file_xfm := some (base ++ lc (r"_aff_diffeo.df.nii.gz")) } := by
  unfold DiffeoTask.listOutputs
  simp only [hin]
  rw [pyReplace_of_suffix (lc (r"_aff_diffeo.nii.gz")) base (by decide) (by decide) hb,
    pyReplace_of_suffix (lc (r"_aff_diffeo.df.nii.gz")) base (by decide) (by decide) hb]

theorem diffeo_outputs_on_niigz_suffix_witness :
    (DiffeoTask.listOutputs ⟨some (lc (r"diffusion") ++ lc (r".nii.gz")),
        none, none, none⟩).2 =
      PyOutcome.ok
        { out_file := some (lc (r"diffusion") ++ lc (r"_aff_diffeo.nii.gz"))
          out_file_xfm := some (lc (r"diffusion") ++ lc (r"_aff_diffeo.df.nii.gz")) } :=
  diffeo_outputs_on_niigz_suffix _ (lc (r"diffusion")) (by decide) rfl

/-- C8: on every in_fixed_tensor containing no occurrence of .nii.gz at
all, such as a path ending in .nii, the replace calls of AffineTask and
DiffeoTask are the identity and both output names equal the input
unchanged. -/
theorem affine_diffeo_identity_without_niigz
    (ainp : AffineInputSpec) (dinp : DiffeoInputSpec) (s : List Char)
    (hs : occursIn (lc (r".nii.gz")) s = false)
    (ha : ainp.in_fixed_tensor = some s) (hd : dinp.in_fixed_tensor = some s) :
    (AffineTask.listOutputs ainp).2 =
      PyOutcome.ok { out_file := some s, out_file_xfm := some s } ∧
    (DiffeoTask.listOutputs dinp).2 =
      PyOutcome.ok { out_file := some s, out_file_xfm := some s } := by
  constructor
  · unfold AffineTask.listOutputs
    simp only [ha]
    rw [pyReplace_id_of_not_occurs (lc (r"_aff.nii.gz")) s hs,
      pyReplace_id_of_not_occurs (lc (r".aff")) s hs]
  · unfold DiffeoTask.listOutputs
    simp only [hd]
    rw [pyReplace_id_of_not_occurs (lc (r"_aff_diffeo.nii.gz")) s hs,
      pyReplace_id_of_not_occurs (lc (r"_aff_diffeo.df.nii.gz")) s hs]

theorem affine_diffeo_identity_without_niigz_witness :
    (AffineTask.listOutputs ⟨some (lc (r"diffusion.nii")), none, none, none⟩).2 =
      PyOutcome.ok
        { out_file := some (lc (r"diffusion.nii"))
          out_file_xfm := some (lc (r"diffusion.nii")) } ∧
    (DiffeoTask.listOutputs ⟨some (lc (r"diffusion.nii")), none, none, none⟩).2 =
      PyOutcome.ok
        { out_file := some (lc (r"diffusion.nii"))
          out_file_xfm := some (lc (r"diffusion.nii")) } :=
  affine_diffeo_identity_without_niigz _ _ (lc (r"diffusion.nii"))
    (by decide) rfl rfl

/-- C2 counterexample: on the input x.nii.gz.nii.gz, whose first
occurrence of .nii.gz is interior, AffineTask._list_outputs rewrites the
interior occurrence as well, returning x.aff.aff as out_file_xfm where
the claim predicts x.nii.gz.aff. -/
theorem affine_replace_hits_interior_occurrence :
    (AffineTask.listOutputs ⟨some (lc (r"x.nii.gz.nii.gz")), none, none, none⟩).2 =
      PyOutcome.ok
        { out_file := some (lc (r"x_aff.nii.gz_aff.nii.gz"))
          out_file_xfm := some (lc (r"x.aff.aff")) } ∧
    lc (r"x.aff.aff") ≠ lc (r"x.nii.gz.aff") :=
  ⟨by decide, by decide⟩

/-- C2 amended: on every input path in which .nii.gz occurs both in the
interior (within the part of the path before the final suffix) and as the
final suffix — with however many occurrences — the _list_outputs methods
of AffineTask and DiffeoTask substitute every non-overlapping occurrence
of .nii.gz, the interior ones included, not only the trailing suffix: the
path splits into .nii.gz-free segments, each followed by one occurrence,
at least two in total, and in every output name each of these occurrences
is replaced. -/
theorem replace_substitutes_every_occurrence
    (ainp : AffineInputSpec) (dinp : DiffeoInputSpec) (t : List Char)
    (hsuf : ∃ b, t = b ++ lc (r".nii.gz"))
    (hmid : occursIn (lc (r".nii.gz"))
      (t.take (t.length - (lc (r".nii.gz")).length)) = true)
    (ha : ainp.in_fixed_tensor = some t) (hd : dinp.in_fixed_tensor = some t) :
    ∃ ss : List (List Char), 2 ≤ ss.length ∧
      (∀ s ∈ ss, occursIn (lc (r".nii.gz")) s = false) ∧
      t = chunksWithPat (lc (r".nii.gz")) ss ∧
      (AffineTask.listOutputs ainp).2 =
        PyOutcome.ok
          { out_file := some (chunksWithPat (lc (r"_aff.nii.gz")) ss)
            out_file_xfm := some (chunksWithPat (lc (r".aff")) ss) } ∧
      (DiffeoTask.listOutputs dinp).2 =
        PyOutcome.ok
          { out_file := some (chunksWithPat (lc (r"_aff_diffeo.nii.gz")) ss)
            out_file_xfm := some (chunksWithPat (lc (r"_aff_diffeo.df.nii.gz")) ss) } := by
  have hov : SelfOverlapFree (lc (r".nii.gz")) := by decide
  have hold : lc (r".nii.gz") ≠ [] := by decide
  obtain ⟨ss, hne, hfree, heq⟩ :=
    decompose_with_suffix hold t.length t (le_refl _) hsuf
  have hlen2 : 2 ≤ ss.length := by
    cases ss with
    | nil => exact absurd rfl hne
    | cons s0 rest =>
      cases rest with
      | nil =>
        exfalso
        have ht : t = s0 ++ lc (r".nii.gz") := by
          rw [heq]
          have hc : chunksWithPat (lc (r".nii.gz")) [s0] =
              s0 ++ (lc (r".nii.gz") ++ []) := rfl
          rw [hc, List.append_nil]
        have htake : t.take (t.length - (lc (r".nii.gz")).length) = s0 := by
          rw [ht]
          have hl : (s0 ++ lc (r".nii.gz")).length - (lc (r".nii.gz")).length =
              s0.length := by
            rw [List.length_append]
            omega
          rw [hl]
          exact List.take_left s0 _
        rw [htake, hfree s0 (List.mem_cons_self s0 [])] at hmid
        exact Bool.false_ne_true hmid
      | cons s1 rest2 =>
        simp only [List.length_cons]
        omega
  refine ⟨ss, hlen2, hfree, heq, ?_, ?_⟩
  · unfold AffineTask.listOutputs
    simp only [ha, heq]
    rw [pyReplace_chunks (lc (r"_aff.nii.gz")) hov hold ss hfree,
      pyReplace_chunks (lc (r".aff")) hov hold ss hfree]
  · unfold DiffeoTask.listOutputs
    simp only [hd, heq]
    rw [pyReplace_chunks (lc (r"_aff_diffeo.nii.gz")) hov hold ss hfree,
      pyReplace_chunks (lc (r"_aff_diffeo.df.nii.gz")) hov hold ss hfree]

theorem replace_substitutes_every_occurrence_witness :
    ∃ ss : List (List Char), 2 ≤ ss.length ∧
      (∀ s ∈ ss, occursIn (lc (r".nii.gz")) s = false) ∧
      lc (r"x.nii.gzy.nii.gz.nii.gz") = chunksWithPat (lc (r".nii.gz")) ss ∧
      (AffineTask.listOutputs
          ⟨some (lc (r"x.nii.gzy.nii.gz.nii.gz")), none, none, none⟩).2 =
        PyOutcome.ok
          { out_file := some (chunksWithPat (lc (r"_aff.nii.gz")) ss)
            out_file_xfm := some (chunksWithPat (lc (r".aff")) ss) } ∧
      (DiffeoTask.listOutputs
          ⟨some (lc (r"x.nii.gzy.nii.gz.nii.gz")), none, none, none⟩).2 =
        PyOutcome.ok
          { out_file := some (chunksWithPat (lc (r"_aff_diffeo.nii.gz")) ss)
            out_file_xfm := some (chunksWithPat (lc (r"_aff_diffeo.df.nii.gz")) ss) } :=
  replace_substitutes_every_occurrence _ _ (lc (r"x.nii.gzy.nii.gz.nii.gz"))
    ⟨lc (r"x.nii.gzy.nii.gz"), by decide⟩ (by decide) rfl rfl

/-- C4 counterexample: at in_df set to x.df.nii.gz the _list_outputs of
ComposeXfmTask returns x_combo.df.nii.gz, which differs from the name the
declared out_path template produces from the same input. -/
theorem compose_xfm_template_disagrees_at_input :
    (ComposeXfmTask.listOutputs ⟨some (lc (r"x.df.nii.gz")), none, none⟩).2 =
      PyOutcome.ok { out_file := some (lc (r"x_combo.df.nii.gz")) } ∧
    lc (r"x_combo.df.nii.gz") ≠ composeXfmTemplateName (lc (r"x.df.nii.gz")) :=
  ⟨by decide, by decide⟩

/-- C4 amended: the two descriptions of ComposeXfmTask's output name
disagree on every in_df carrying the .df.nii.gz suffix: _list_outputs
replaces that suffix by _combo.df.nii.gz, while the declared name
template appends _comboaff.nii.gz to in_df, and the two names always
differ. -/
theorem compose_xfm_two_descriptions_differ
    (inp : ComposeXfmInputSpec) (base : List Char)
    (hb : occursIn (lc (r".df.nii.gz")) base = false)
    (hin : inp.in_df = some (base ++ lc (r".df.nii.gz"))) :
    (ComposeXfmTask.listOutputs inp).2 =
      PyOutcome.ok { out_file := some (base ++ lc (r"_combo.df.nii.gz")) } ∧
    base ++ lc (r"_combo.df.nii.gz") ≠
      composeXfmTemplateName (base ++ lc (r".df.nii.gz")) := by
  constructor
  · unfold ComposeXfmTask.listOutputs
    simp only [hin]
    rw [pyReplace_of_suffix (lc (r"_combo.df.nii.gz")) base (by decide) (by decide) hb]
  · intro he
    have hlen := congrArg List.length he
    unfold composeXfmTemplateName at hlen
    simp only [List.length_append] at hlen
    have e1 : (lc (r"_combo.df.nii.gz")).length = 16 := by decide
    have e2 : (lc (r".df.nii.gz")).length = 10 := by decide
    have e3 : (lc (r"_comboaff.nii.gz")).length = 16 := by decide
    rw [e1, e2, e3] at hlen
    omega

theorem compose_xfm_two_descriptions_differ_witness :
    (ComposeXfmTask.listOutputs ⟨some (lc (r"ants_Warp") ++ lc (r".df.nii.gz")),
        none, none⟩).2 =
      PyOutcome.ok { out_file := some (lc (r"ants_Warp") ++ lc (r"_combo.df.nii.gz")) } ∧
    lc (r"ants_Warp") ++ lc (r"_combo.df.nii.gz") ≠
      composeXfmTemplateName (lc (r"ants_Warp") ++ lc (r".df.nii.gz")) :=
  compose_xfm_two_descriptions_differ _ (lc (r"ants_Warp")) (by decide) rfl

/-- C10: assignment to the similarity_metric Enum of RigidInputSpec and
to the in_similarity_metric Enum of AffineInputSpec succeeds exactly on
the four declared values EDS, GDS, DDS and NMI, storing the value; any
other string raises TraitError and leaves the spec unchanged. -/
theorem similarity_metric_enum_validation
    (r : RigidInputSpec) (a : AffineInputSpec) (v : List Char) :
    (v ∈ simEnumValues →
      RigidInputSpec.setSimilarityMetric r v =
        ({ r with similarity_metric := some v }, none) ∧
      AffineInputSpec.setInSimilarityMetric a v =
        ({ a with in_similarity_metric := some v }, none)) ∧
    (v ∉ simEnumValues →
      RigidInputSpec.setSimilarityMetric r v = (r, some PyError.traitError) ∧
      AffineInputSpec.setInSimilarityMetric a v = (a, some PyError.traitError)) := by
  constructor
  · intro hv
    unfold RigidInputSpec.setSimilarityMetric AffineInputSpec.setInSimilarityMetric
    rw [if_pos hv, if_pos hv]
    exact ⟨rfl, rfl⟩
  · intro hv
    unfold RigidInputSpec.setSimilarityMetric AffineInputSpec.setInSimilarityMetric
    rw [if_neg hv, if_neg hv]
    exact ⟨rfl, rfl⟩

theorem similarity_metric_enum_validation_witness :
    RigidInputSpec.setSimilarityMetric ⟨none, none, none⟩ (lc (r"EDS")) =
      (⟨none, none, some (lc (r"EDS"))⟩, none) ∧
    AffineInputSpec.setInSimilarityMetric ⟨none, none, none, none⟩ (lc (r"EDS")) =
      (⟨none, none, some (lc (r"EDS")), none⟩, none) ∧
    RigidInputSpec.setSimilarityMetric ⟨none, none, none⟩ (lc (r"SSD")) =
      (⟨none, none, none⟩, some PyError.traitError) :=
  ⟨((similarity_metric_enum_validation ⟨none, none, none⟩ ⟨none, none, none, none⟩
      (lc (r"EDS"))).1 (by decide)).1,
    ((similarity_metric_enum_validation ⟨none, none, none⟩ ⟨none, none, none, none⟩
      (lc (r"EDS"))).1 (by decide)).2,
    ((similarity_metric_enum_validation ⟨none, none, none⟩ ⟨none, none, none, none⟩
      (lc (r"SSD"))).2 (by decide)).1⟩

/-- C3 counterexample: with out_path Undefined and in_volume set,
diffeoScalarVolTask._list_outputs assigns the computed default to its own
out_path input, so calling it does change the task's inputs. -/
theorem diffeo_scalar_vol_mutates_out_path :
    (diffeoScalarVolTask.listOutputs (lc (r"/tmp"))
        ⟨some (lc (r"fa.nii.gz")), none, none, none, none, none, none, none⟩).1 ≠
      ⟨some (lc (r"fa.nii.gz")), none, none, none, none, none, none, none⟩ := by
  decide

/-- C3 amended: _list_outputs leaves the task's inputs unchanged for
every task class except diffeoScalarVolTask, which, exactly when out_path
is Undefined and in_volume is set, assigns the computed default output
path to its out_path input; in its remaining cases it too leaves the
inputs unchanged. -/
theorem list_outputs_frame_condition
    (r : RigidInputSpec) (a : AffineInputSpec) (d : DiffeoInputSpec)
    (cx : ComposeXfmInputSpec) (ds : diffeoSymTensor3DVolInputSpec)
    (a2 : affSymTensor3DVolInputSpec) (asc : affScalarVolInputSpec)
    (dv : diffeoScalarVolInputSpec) (cwd p v : List Char) :
    (RigidTask.listOutputs r).1 = r ∧
    (AffineTask.listOutputs a).1 = a ∧
    (DiffeoTask.listOutputs d).1 = d ∧
    (ComposeXfmTask.listOutputs cx).1 = cx ∧
    (diffeoSymTensor3DVolTask.listOutputs ds).1 = ds ∧
    (affSymTensor3DVolTask.listOutputs cwd a2).1 = a2 ∧
    (affScalarVolTask.listOutputs cwd asc).1 = asc ∧
    (dv.out_path = some p → (diffeoScalarVolTask.listOutputs cwd dv).1 = dv) ∧
    (dv.out_path = none → dv.in_volume = none →
      (diffeoScalarVolTask.listOutputs cwd dv).1 = dv) ∧
    (dv.out_path = none → dv.in_volume = some v →
      (diffeoScalarVolTask.listOutputs cwd dv).1 =
        { dv with out_path := some (dsvDefaultOut cwd v) } ∧
      (diffeoScalarVolTask.listOutputs cwd dv).1 ≠ dv) := by
  refine ⟨rfl, rfl, rfl, rfl, rfl, rfl, rfl, ?_, ?_, ?_⟩
  · intro hp
    unfold diffeoScalarVolTask.listOutputs
    simp only [hp]
  · intro hp hv
    unfold diffeoScalarVolTask.listOutputs
    simp only [hp, hv]
  · intro hp hv
    have heq : (diffeoScalarVolTask.listOutputs cwd dv).1 =
        { dv with out_path := some (dsvDefaultOut cwd v) } := by
      unfold diffeoScalarVolTask.listOutputs
      simp only [hp, hv]
    refine ⟨heq, ?_⟩
    rw [heq]
    intro he
    have hop := congrArg diffeoScalarVolInputSpec.out_path he
    simp only [hp] at hop
    exact Option.noConfusion hop

theorem list_outputs_frame_condition_witness :
    (diffeoScalarVolTask.listOutputs (lc (r"/tmp"))
        ⟨some (lc (r"fa.nii.gz")), none, none, none, none, none, none, none⟩).1 =
      { (⟨some (lc (r"fa.nii.gz")), none, none, none, none, none, none, none⟩ :
          diffeoScalarVolInputSpec) with
        out_path := some (dsvDefaultOut (lc (r"/tmp")) (lc (r"fa.nii.gz"))) } ∧
    (diffeoScalarVolTask.listOutputs (lc (r"/tmp"))
        ⟨some (lc (r"fa.nii.gz")), none, none, none, none, none, none, none⟩).1 ≠
      ⟨some (lc (r"fa.nii.gz")), none, none, none, none, none, none, none⟩ :=
  (list_outputs_frame_condition ⟨none, none, none⟩ ⟨none, none, none, none⟩
    ⟨none, none, none, none⟩ ⟨none, none, none⟩ ⟨none, none, none, none⟩
    ⟨none, none, none, none⟩ ⟨none, none, none, none⟩
    ⟨some (lc (r"fa.nii.gz")), none, none, none, none, none, none, none⟩
    (lc (r"/tmp")) [] (lc (r"fa.nii.gz"))).2.2.2.2.2.2.2.2.2 rfl rfl

theorem isAbs_append {a : List Char} (b : List Char) (h : isAbs a = true) :
    isAbs (a ++ b) = true := by
  cases a with
  | nil => simp [isAbs] at h
  | cons c cs => simpa [isAbs] using h

theorem isAbs_joinPath {cwd : List Char} (p : List Char) (h : isAbs cwd = true) :
    isAbs (joinPath cwd p) = true := by
  unfold joinPath
  by_cases hp : isAbs p = true
  · rw [if_pos hp]; exact hp
  · rw [if_neg hp]
    have hcwd : cwd ≠ [] := by
      intro he; rw [he] at h; simp [isAbs] at h
    rw [if_neg hcwd]
    by_cases hl : cwd.getLast? = some slashChar
    · rw [if_pos hl]; exact isAbs_append _ h
    · rw [if_neg hl]; exact isAbs_append _ h

theorem isAbs_normpath {p : List Char} (h : isAbs p = true) :
    isAbs (normpath p) = true := by
  have hne : p ≠ [] := by
    intro he; rw [he] at h; simp [isAbs] at h
  have hk : 1 ≤ initialSlashes p := by
    unfold initialSlashes
    by_cases h2 : (startsWith (lc (r"//")) p && !startsWith (lc (r"///")) p) = true
    · rw [if_pos h2]; omega
    · rw [if_neg h2, if_pos h]
  have hbody : isAbs (normBody p) = true := by
    unfold normBody
    cases hE : initialSlashes p with
    | zero => omega
    | succ k =>
      rw [List.replicate_succ]
      simp [isAbs, slashChar]
  have hbne : normBody p ≠ [] := by
    intro he; rw [he] at hbody; simp [isAbs] at hbody
  unfold normpath
  rw [if_neg hne, if_neg hbne]
  exact hbody

/-- C9: diffeoSymTensor3DVolTask._list_outputs returns out_path verbatim
while affSymTensor3DVolTask and affScalarVolTask return its absolute
path, and on every relative out_path the former's result differs from
the latter's, since the absolute path starts with a separator that the
relative path lacks. -/
theorem sym_tensor_tasks_absolute_vs_verbatim
    (cwd p : List Char) (ds : diffeoSymTensor3DVolInputSpec)
    (a2 : affSymTensor3DVolInputSpec) (asc : affScalarVolInputSpec)
    (hcwd : isAbs cwd = true) (hrel : isAbs p = false)
    (h1 : ds.out_path = some p) (h2 : a2.out_path = some p)
    (h3 : asc.out_path = some p) :
    (diffeoSymTensor3DVolTask.listOutputs ds).2 =
      PyOutcome.ok { out_file := some p } ∧
    (affSymTensor3DVolTask.listOutputs cwd a2).2 =
      PyOutcome.ok { out_file := some (abspath cwd p) } ∧
    (affScalarVolTask.listOutputs cwd asc).2 =
      PyOutcome.ok { out_file := some (abspath cwd p) } ∧
    p ≠ abspath cwd p := by
  refine ⟨by simp only [diffeoSymTensor3DVolTask.listOutputs, h1],
    by unfold affSymTensor3DVolTask.listOutputs; simp only [h2],
    by unfold affScalarVolTask.listOutputs; simp only [h3], ?_⟩
  intro he
  have habs : isAbs (abspath cwd p) = true := by
    unfold abspath
    rw [if_neg (by simp [hrel])]
    exact isAbs_normpath (isAbs_joinPath p hcwd)
  rw [← he, hrel] at habs
  exact Bool.false_ne_true habs

theorem sym_tensor_tasks_absolute_vs_verbatim_witness :
    (diffeoSymTensor3DVolTask.listOutputs
        ⟨none, none, none, some (lc (r"out.nii.gz"))⟩).2 =
      PyOutcome.ok { out_file := some (lc (r"out.nii.gz")) } ∧
    (affSymTensor3DVolTask.listOutputs (lc (r"/home"))
        ⟨none, none, none, some (lc (r"out.nii.gz"))⟩).2 =
      PyOutcome.ok
        { out_file := some (abspath (lc (r"/home")) (lc (r"out.nii.gz"))) } ∧
    (affScalarVolTask.listOutputs (lc (r"/home"))
        ⟨none, none, none, some (lc (r"out.nii.gz"))⟩).2 =
      PyOutcome.ok
        { out_file := some (abspath (lc (r"/home")) (lc (r"out.nii.gz"))) } ∧
    lc (r"out.nii.gz") ≠ abspath (lc (r"/home")) (lc (r"out.nii.gz")) :=
  sym_tensor_tasks_absolute_vs_verbatim (lc (r"/home")) (lc (r"out.nii.gz"))
    ⟨none, none, none, some (lc (r"out.nii.gz"))⟩
    ⟨none, none, none, some (lc (r"out.nii.gz"))⟩
    ⟨none, none, none, some (lc (r"out.nii.gz"))⟩
    (by decide) (by decide) rfl rfl rfl

theorem splitSlash_ne_nil : ∀ p : List Char, splitSlash p ≠ [] := by
  intro p
  cases p with
  | nil => simp [splitSlash]
  | cons c cs =>
    unfold splitSlash
    by_cases h : (c == slashChar) = true
    · rw [if_pos h]; simp
    · rw [if_neg h]
      cases hsp : splitSlash cs with
      | nil => simp
      | cons p ps => simp

theorem splitSlash_cons_slash {c : Char} (h : (c == slashChar) = true)
    (cs : List Char) : splitSlash (c :: cs) = [] :: splitSlash cs := by
  conv_lhs => unfold splitSlash
  rw [if_pos h]

theorem splitSlash_cons_nonslash {c : Char} (cs : List Char)
    (h : (c == slashChar) = false) {p : List Char} {ps : List (List Char)}
    (hsp : splitSlash cs = p :: ps) :
    splitSlash (c :: cs) = (c :: p) :: ps := by
  conv_lhs => unfold splitSlash
  rw [if_neg (by simp [h]), hsp]

theorem splitSlash_exists_cons (cs : List Char) :
    ∃ p ps, splitSlash cs = p :: ps := by
  cases hsp : splitSlash cs with
  | nil => exact absurd hsp (splitSlash_ne_nil cs)
  | cons p ps => exact ⟨p, ps, rfl⟩

theorem splitSlash_append (x y : List Char) :
    splitSlash (x ++ slashChar :: y) = splitSlash x ++ splitSlash y := by
  induction x with
  | nil =>
    rw [List.nil_append, splitSlash_cons_slash (by simp)]
    rfl
  | cons c cs ih =>
    rw [show (c :: cs) ++ slashChar :: y = c :: (cs ++ slashChar :: y) from rfl]
    by_cases h : (c == slashChar) = true
    · rw [splitSlash_cons_slash h, splitSlash_cons_slash h, ih]
      rfl
    · have h' : (c == slashChar) = false := Bool.eq_false_iff.mpr h
      obtain ⟨p, ps, hsp⟩ := splitSlash_exists_cons cs
      obtain ⟨q, qs, hsq⟩ := splitSlash_exists_cons (cs ++ slashChar :: y)
      have hqq : q :: qs = p :: (ps ++ splitSlash y) := by
        rw [← hsq, ih, hsp]
        rfl
      injection hqq with hq hqs
      rw [splitSlash_cons_nonslash _ h' hsq, splitSlash_cons_nonslash _ h' hsp,
        hq, hqs]
      rfl

theorem noSlash_cons {c : Char} {cs : List Char} (h : noSlash (c :: cs) = true) :
    (c == slashChar) = false ∧ noSlash cs = true := by
  have h' : (!(c == slashChar)) = true ∧ cs.all (fun d => !(d == slashChar)) = true := by
    have h2 : ((!(c == slashChar)) && cs.all (fun d => !(d == slashChar))) = true := by
      simpa [noSlash, List.all_cons] using h
    simpa using h2
  exact ⟨by simpa using h'.1, h'.2⟩

theorem splitSlash_noSlash {x : List Char} (h : noSlash x = true) :
    splitSlash x = [x] := by
  induction x with
  | nil => rfl
  | cons c cs ih =>
    obtain ⟨h1, h2⟩ := noSlash_cons h
    rw [splitSlash_cons_nonslash _ h1 (ih h2)]

theorem splitSlash_mem_noSlash :
    ∀ (p : List Char), ∀ x ∈ splitSlash p, noSlash x = true := by
  intro p
  induction p with
  | nil =>
    intro x hx
    rw [show splitSlash [] = [[]] from rfl, List.mem_singleton] at hx
    subst hx
    rfl
  | cons c cs ih =>
    intro x hx
    by_cases h : (c == slashChar) = true
    · rw [splitSlash_cons_slash h] at hx
      rcases List.mem_cons.mp hx with rfl | hx2
      · rfl
      · exact ih x hx2
    · have h' : (c == slashChar) = false := Bool.eq_false_iff.mpr h
      obtain ⟨p1, ps, hsp⟩ := splitSlash_exists_cons cs
      rw [splitSlash_cons_nonslash _ h' hsp] at hx
      rcases List.mem_cons.mp hx with rfl | hx2
      · have hp1 : noSlash p1 = true :=
          ih p1 (by rw [hsp]; exact List.mem_cons_self _ _)
        have : ((!(c == slashChar)) && p1.all (fun d => !(d == slashChar))) = true := by
          rw [h']
          simpa [noSlash] using hp1
        simpa [noSlash, List.all_cons] using this
      · exact ih x (by rw [hsp]; exact List.mem_cons_of_mem _ hx2)

theorem normFold_append (r : Bool) (cs ds : List (List Char)) :
    ∀ acc, normFold r acc (cs ++ ds) = normFold r (normFold r acc cs) ds := by
  induction cs with
  | nil => intro acc; rfl
  | cons c rest ih => intro acc; exact ih (normStep r acc c)

theorem goodComp_spec {x : List Char} (h : goodComp x = true) :
    (x == ([] : List Char)) = false ∧ (x == lc (r".")) = false ∧
      (x == lc (r"..")) = false := by
  have h' : (¬x = [] ∧ ¬x = lc (r".")) ∧ ¬x = lc (r"..") := by
    simpa [goodComp] using h
  exact ⟨beq_eq_false_iff_ne.mpr h'.1.1, beq_eq_false_iff_ne.mpr h'.1.2,
    beq_eq_false_iff_ne.mpr h'.2⟩

theorem accHeadDotdot_false {acc : List (List Char)}
    (h : ∀ x ∈ acc, goodComp x = true) : accHeadDotdot acc = false := by
  cases acc with
  | nil => rfl
  | cons a rest =>
    have := (goodComp_spec (h a (List.mem_cons_self a rest))).2.2
    simpa [accHeadDotdot] using this

theorem normStep_good {acc : List (List Char)} {c : List Char} (r : Bool)
    (hc : goodComp c = true) : normStep r acc c = c :: acc := by
  obtain ⟨h1, h2, h3⟩ := goodComp_spec hc
  unfold normStep
  rw [h1, h2, h3]
  simp

theorem normStep_dot (r : Bool) (acc : List (List Char)) :
    normStep r acc (lc (r".")) = acc := by
  unfold normStep
  rw [if_pos (by simp)]

theorem normStep_empty (r : Bool) (acc : List (List Char)) :
    normStep r acc [] = acc := by
  unfold normStep
  rw [if_pos (by simp)]

theorem normStep_mem {r : Bool} {acc : List (List Char)} {c x : List Char}
    (hx : x ∈ normStep r acc c) : x ∈ acc ∨ x = c := by
  unfold normStep at hx
  by_cases h1 : (c == ([] : List Char) || c == lc (r".")) = true
  · rw [if_pos h1] at hx; exact Or.inl hx
  · rw [if_neg h1] at hx
    by_cases h2 : (!(c == lc (r"..")) || (!r && acc.isEmpty) || accHeadDotdot acc) = true
    · rw [if_pos h2] at hx
      rcases List.mem_cons.mp hx with rfl | hx2
      · exact Or.inr rfl
      · exact Or.inl hx2
    · rw [if_neg h2] at hx
      cases acc with
      | nil => exact Or.inl hx
      | cons a rest => exact Or.inl (List.mem_cons_of_mem a hx)

theorem normStep_good_preserved {acc : List (List Char)} {c : List Char}
    (hacc : ∀ x ∈ acc, goodComp x = true) :
    ∀ x ∈ normStep true acc c, goodComp x = true := by
  intro x hx
  unfold normStep at hx
  by_cases h1 : (c == ([] : List Char) || c == lc (r".")) = true
  · rw [if_pos h1] at hx; exact hacc x hx
  · rw [if_neg h1] at hx
    by_cases h2 : (!(c == lc (r"..")) || (!true && acc.isEmpty) || accHeadDotdot acc) = true
    · rw [if_pos h2] at hx
      rcases List.mem_cons.mp hx with rfl | hx2
      · have h1' : (x == ([] : List Char)) = false ∧ (x == lc (r".")) = false := by
          have hf : (x == ([] : List Char) || x == lc (r".")) = false :=
            Bool.eq_false_iff.mpr h1
          exact Bool.or_eq_false_iff.mp hf
        have hdd : accHeadDotdot acc = false := accHeadDotdot_false hacc
        have h3 : (x == lc (r"..")) = false := by
          cases hc3 : (x == lc (r"..")) with
          | false => rfl
          | true =>
            rw [hc3, hdd] at h2
            simp at h2
        have : goodComp x = ((!false) && (!false) && (!false)) := by
          unfold goodComp
          rw [h1'.1, h1'.2, h3]
        rw [this]
        rfl
      · exact hacc x hx2
    · rw [if_neg h2] at hx
      cases acc with
      | nil => exact hacc x hx
      | cons a rest => exact hacc x (List.mem_cons_of_mem a hx)

theorem normFold_good : ∀ (cs acc : List (List Char)),
    (∀ x ∈ acc, goodComp x = true) →
    ∀ x ∈ normFold true acc cs, goodComp x = true := by
  intro cs
  induction cs with
  | nil => intro acc hacc x hx; exact hacc x hx
  | cons c rest ih =>
    intro acc hacc x hx
    exact ih (normStep true acc c) (normStep_good_preserved hacc) x hx

theorem normFold_mem (r : Bool) : ∀ (cs acc : List (List Char)) (x : List Char),
    x ∈ normFold r acc cs → x ∈ acc ∨ x ∈ cs := by
  intro cs
  induction cs with
  | nil => intro acc x hx; exact Or.inl hx
  | cons c rest ih =>
    intro acc x hx
    rcases ih (normStep r acc c) x hx with h | h
    · rcases normStep_mem h with h2 | h2
      · exact Or.inl h2
      · exact Or.inr (by rw [h2]; exact List.mem_cons_self c rest)
    · exact Or.inr (List.mem_cons_of_mem c h)

theorem ic_cons_ne (x : List Char) (rest : List (List Char)) (h : rest ≠ []) :
    intercalateSlash (x :: rest) = x ++ slashChar :: intercalateSlash rest := by
  cases rest with
  | nil => exact absurd rfl h
  | cons y t => rfl

theorem ic_append_singleton (w : List Char) :
    ∀ C : List (List Char), C ≠ [] →
      intercalateSlash (C ++ [w]) = intercalateSlash C ++ slashChar :: w := by
  intro C
  induction C with
  | nil => intro h; exact absurd rfl h
  | cons x rest ih =>
    intro _
    cases rest with
    | nil => rfl
    | cons y t =>
      rw [show (x :: y :: t) ++ [w] = x :: ((y :: t) ++ [w]) from rfl]
      rw [ic_cons_ne x ((y :: t) ++ [w]) (by simp), ic_cons_ne x (y :: t) (by simp),
        ih (by simp)]
      simp [List.append_assoc]

theorem ic_ne_nil : ∀ C : List (List Char), C ≠ [] → (∀ x ∈ C, x ≠ []) →
    intercalateSlash C ≠ [] := by
  intro C hC hall
  cases C with
  | nil => exact absurd rfl hC
  | cons x rest =>
    have hx : x ≠ [] := hall x (List.mem_cons_self x rest)
    cases rest with
    | nil => simpa [intercalateSlash] using hx
    | cons y t =>
      rw [ic_cons_ne x (y :: t) (by simp)]
      intro he
      exact hx (List.append_eq_nil.mp he).1

theorem ic_head_shape (h : Char) (t : List Char) (rest : List (List Char)) :
    ∃ z : List Char, intercalateSlash ((h :: t) :: rest) = h :: (t ++ z) := by
  cases rest with
  | nil => exact ⟨[], by simp [intercalateSlash]⟩
  | cons y r2 => exact ⟨slashChar :: intercalateSlash (y :: r2), rfl⟩

theorem getLast?_cons_ne_nil (a : Char) {l : List Char} (h : l ≠ []) :
    (a :: l).getLast? = l.getLast? := by
  cases l with
  | nil => exact absurd rfl h
  | cons b bs => rfl

theorem getLast_some_mem {l : List Char} (h : l ≠ []) :
    ∃ v, l.getLast? = some v ∧ v ∈ l :=
  ⟨l.getLast h, List.getLast?_eq_getLast l h, List.getLast_mem h⟩

theorem ic_getLast_mem :
    ∀ C : List (List Char), C ≠ [] → (∀ x ∈ C, x ≠ []) →
      ∃ v x, (intercalateSlash C).getLast? = some v ∧ x ∈ C ∧ v ∈ x := by
  intro C
  induction C with
  | nil => intro h _; exact absurd rfl h
  | cons x rest ih =>
    intro _ hall
    cases rest with
    | nil =>
      have hx : x ≠ [] := hall x (List.mem_cons_self x [])
      obtain ⟨v, hv, hvm⟩ := getLast_some_mem hx
      exact ⟨v, x, hv, List.mem_cons_self x [], hvm⟩
    | cons y r2 =>
      have hrest : ∀ w ∈ (y :: r2), w ≠ [] := fun w hw =>
        hall w (List.mem_cons_of_mem x hw)
      obtain ⟨v, x2, hv, hx2, hvm⟩ := ih (by simp) hrest
      have hicne : intercalateSlash (y :: r2) ≠ [] :=
        ic_ne_nil (y :: r2) (by simp) hrest
      refine ⟨v, x2, ?_, List.mem_cons_of_mem x hx2, hvm⟩
      rw [ic_cons_ne x (y :: r2) (by simp), List.getLast?_append,
        getLast?_cons_ne_nil slashChar hicne, hv]
      rfl

theorem initialSlashes_cases {p : List Char} (h : isAbs p = true) :
    initialSlashes p = 1 ∨ initialSlashes p = 2 := by
  unfold initialSlashes
  by_cases h2 : (startsWith (lc (r"//")) p && !startsWith (lc (r"///")) p) = true
  · rw [if_pos h2]; exact Or.inr rfl
  · rw [if_neg h2, if_pos h]; exact Or.inl rfl

theorem initialSlashes_one {z : List Char}
    (hz : ∀ c cs, z = c :: cs → (c == slashChar) = false) :
    initialSlashes (slashChar :: z) = 1 := by
  have hsw : startsWith (lc (r"//")) (slashChar :: z) = false := by
    cases z with
    | nil => decide
    | cons c cs =>
      have hc := hz c cs rfl
      have he : startsWith (lc (r"//")) (slashChar :: c :: cs) =
          ((slashChar == slashChar) && ((slashChar == c) && true)) := rfl
      have h2 : (slashChar == c) = false := beq_eq_false_iff_ne.mpr
        (fun heq => (beq_eq_false_iff_ne.mp hc) heq.symm)
      rw [he, h2]
      simp
  unfold initialSlashes
  rw [hsw]
  simp [isAbs]

theorem initialSlashes_two {z : List Char}
    (hz : ∀ c cs, z = c :: cs → (c == slashChar) = false) :
    initialSlashes (slashChar :: slashChar :: z) = 2 := by
  have h2 : startsWith (lc (r"//")) (slashChar :: slashChar :: z) = true := by
    have he : startsWith (lc (r"//")) (slashChar :: slashChar :: z) =
        ((slashChar == slashChar) && ((slashChar == slashChar) && true)) := rfl
    rw [he]
    simp
  have h3 : startsWith (lc (r"///")) (slashChar :: slashChar :: z) = false := by
    cases z with
    | nil => decide
    | cons c cs =>
      have hc := hz c cs rfl
      have he : startsWith (lc (r"///")) (slashChar :: slashChar :: c :: cs) =
          ((slashChar == slashChar) && ((slashChar == slashChar) &&
            ((slashChar == c) && true))) := rfl
      have h2c : (slashChar == c) = false := beq_eq_false_iff_ne.mpr
        (fun heq => (beq_eq_false_iff_ne.mp hc) heq.symm)
      rw [he, h2c]
      simp
  unfold initialSlashes
  rw [h2, h3]
  simp

theorem normBody_ne_nil_of_abs {p : List Char} (h : isAbs p = true) :
    normBody p ≠ [] := by
  have hk : 1 ≤ initialSlashes p := by
    rcases initialSlashes_cases h with h1 | h1 <;> omega
  unfold normBody
  intro he
  obtain ⟨h1, _⟩ := List.append_eq_nil.mp he
  have h2 := congrArg List.length h1
  simp at h2
  omega

theorem normpath_eq_body {p : List Char} (h : isAbs p = true) :
    normpath p = normBody p := by
  have hne : p ≠ [] := by
    intro he; rw [he] at h; simp [isAbs] at h
  unfold normpath
  rw [if_neg hne, if_neg (normBody_ne_nil_of_abs h)]

theorem cwd_structure {cwd : List Char} (habs : isAbs cwd = true)
    (hnorm : normpath cwd = cwd) :
    cwd = List.replicate (initialSlashes cwd) slashChar ++
      intercalateSlash ((normFold true [] (splitSlash cwd)).reverse) := by
  conv_lhs => rw [← hnorm, normpath_eq_body habs]
  unfold normBody
  rw [habs]

theorem comps_good (cwd : List Char) :
    ∀ x ∈ (normFold true [] (splitSlash cwd)).reverse,
      goodComp x = true ∧ noSlash x = true := by
  intro x hx
  rw [List.mem_reverse] at hx
  constructor
  · exact normFold_good (splitSlash cwd) []
      (fun y hy => absurd hy (List.not_mem_nil y)) x hx
  · rcases normFold_mem true (splitSlash cwd) [] x hx with h | h
    · exact absurd h (List.not_mem_nil x)
    · exact splitSlash_mem_noSlash cwd x h

theorem cwd_split {cwd : List Char} (habs : isAbs cwd = true)
    (hnorm : normpath cwd = cwd) :
    cwd = [slashChar] ∨ cwd = [slashChar, slashChar] ∨
      ((normFold true [] (splitSlash cwd)).reverse ≠ [] ∧
        cwd.getLast? ≠ some slashChar) := by
  have hcwd := cwd_structure habs hnorm
  by_cases hA : (normFold true [] (splitSlash cwd)).reverse = []
  · rw [hA] at hcwd
    rcases initialSlashes_cases habs with h1 | h1
    · left
      rw [h1] at hcwd
      simpa [intercalateSlash] using hcwd
    · right; left
      rw [h1] at hcwd
      simpa [intercalateSlash] using hcwd
  · right; right
    refine ⟨hA, ?_⟩
    have hgood := comps_good cwd
    have hnn : ∀ x ∈ (normFold true [] (splitSlash cwd)).reverse, x ≠ [] := by
      intro x hx
      exact beq_eq_false_iff_ne.mp (goodComp_spec (hgood x hx).1).1
    obtain ⟨v, x, hv, hxm, hvx⟩ := ic_getLast_mem _ hA hnn
    have hlast : cwd.getLast? = some v := by
      have h2 : (List.replicate (initialSlashes cwd) slashChar ++
          intercalateSlash ((normFold true [] (splitSlash cwd)).reverse)).getLast? =
            some v := by
        rw [List.getLast?_append, hv]
        rfl
      rw [← hcwd] at h2
      exact h2
    rw [hlast]
    intro he
    injection he with he2
    have hall : x.all (fun d => !(d == slashChar)) = true := (hgood x hxm).2
    have hb := List.all_eq_true.mp hall v hvx
    rw [he2] at hb
    simp at hb

theorem normpath_cwd_append {cwd : List Char} (habs : isAbs cwd = true)
    (hnorm : normpath cwd = cwd)
    (hA : (normFold true [] (splitSlash cwd)).reverse ≠ []) (w : List Char)
    (hw : noSlash w = true) :
    normpath (cwd ++ slashChar :: w) =
      List.replicate (initialSlashes cwd) slashChar ++
        intercalateSlash ((normStep true (normFold true [] (splitSlash cwd)) w).reverse) := by
  have habs2 : isAbs (cwd ++ slashChar :: w) = true := isAbs_append _ habs
  have hcwd := cwd_structure habs hnorm
  have hinit : initialSlashes (cwd ++ slashChar :: w) = initialSlashes cwd := by
    obtain ⟨x0, xr, hxr⟩ : ∃ x0 xr,
        (normFold true [] (splitSlash cwd)).reverse = x0 :: xr := by
      cases hc : (normFold true [] (splitSlash cwd)).reverse with
      | nil => exact absurd hc hA
      | cons x0 xr => exact ⟨x0, xr, rfl⟩
    have hx0 := comps_good cwd x0 (by rw [hxr]; exact List.mem_cons_self x0 xr)
    obtain ⟨h0, t0, hx0e⟩ : ∃ h0 t0, x0 = h0 :: t0 := by
      cases x0 with
      | nil =>
        exact absurd (beq_eq_false_iff_ne.mp (goodComp_spec hx0.1).1) (by simp)
      | cons h0 t0 => exact ⟨h0, t0, rfl⟩
    have hh0 : (h0 == slashChar) = false := by
      have := hx0.2
      rw [hx0e] at this
      exact (noSlash_cons this).1
    obtain ⟨z, hicz⟩ := ic_head_shape h0 t0 xr
    have hform : cwd ++ slashChar :: w =
        List.replicate (initialSlashes cwd) slashChar ++
          (h0 :: ((t0 ++ z) ++ slashChar :: w)) := by
      conv_lhs => rw [hcwd, hxr, hx0e]
      rw [hicz, List.append_assoc]
      rfl
    rw [hform]
    rcases initialSlashes_cases habs with h1 | h1
    · rw [h1, List.replicate_one]
      exact initialSlashes_one (by
        intro c cs he
        injection he with he1 he2
        rw [← he1]
        exact hh0)
    · rw [h1, show List.replicate 2 slashChar = [slashChar, slashChar] from rfl]
      exact initialSlashes_two (by
        intro c cs he
        injection he with he1 he2
        rw [← he1]
        exact hh0)
  rw [normpath_eq_body habs2]
  unfold normBody
  rw [habs2, splitSlash_append, splitSlash_noSlash hw, normFold_append, hinit]
  rfl

theorem normpath_root_append {w : List Char} (hw : noSlash w = true)
    (hgood : goodComp w = true) :
    normpath (slashChar :: w) = slashChar :: w := by
  obtain ⟨h0, t0, rfl⟩ : ∃ h0 t0, w = h0 :: t0 := by
    cases w with
    | nil => exact absurd (beq_eq_false_iff_ne.mp (goodComp_spec hgood).1) (by simp)
    | cons h0 t0 => exact ⟨h0, t0, rfl⟩
  have hh0 : (h0 == slashChar) = false := (noSlash_cons hw).1
  have habs2 : isAbs (slashChar :: h0 :: t0) = true := by simp [isAbs]
  rw [normpath_eq_body habs2]
  unfold normBody
  rw [habs2, splitSlash_cons_slash (by simp), splitSlash_noSlash hw]
  have hF : normFold true [] ([] :: [h0 :: t0]) = [h0 :: t0] := by
    show normStep true (normStep true [] []) (h0 :: t0) = _
    rw [normStep_empty]
    exact normStep_good true hgood
  rw [hF, initialSlashes_one (by
    intro c cs he
    injection he with he1 he2
    rw [← he1]
    exact hh0)]
  rfl

theorem normpath_rootroot_append {w : List Char} (hw : noSlash w = true)
    (hgood : goodComp w = true) :
    normpath (slashChar :: slashChar :: w) = slashChar :: slashChar :: w := by
  obtain ⟨h0, t0, rfl⟩ : ∃ h0 t0, w = h0 :: t0 := by
    cases w with
    | nil => exact absurd (beq_eq_false_iff_ne.mp (goodComp_spec hgood).1) (by simp)
    | cons h0 t0 => exact ⟨h0, t0, rfl⟩
  have hh0 : (h0 == slashChar) = false := (noSlash_cons hw).1
  have habs2 : isAbs (slashChar :: slashChar :: h0 :: t0) = true := by simp [isAbs]
  rw [normpath_eq_body habs2]
  unfold normBody
  rw [habs2, splitSlash_cons_slash (by simp), splitSlash_cons_slash (by simp),
    splitSlash_noSlash hw]
  have hF : normFold true [] ([] :: [] :: [h0 :: t0]) = [h0 :: t0] := by
    show normStep true (normStep true (normStep true [] []) []) (h0 :: t0) = _
    rw [normStep_empty, normStep_empty]
    exact normStep_good true hgood
  rw [hF, initialSlashes_two (by
    intro c cs he
    injection he with he1 he2
    rw [← he1]
    exact hh0)]
  rfl

theorem abspath_dot {cwd : List Char} (habs : isAbs cwd = true)
    (hnorm : normpath cwd = cwd) : abspath cwd (lc (r".")) = cwd := by
  have hcne : cwd ≠ [] := by
    intro he; rw [he] at habs; simp [isAbs] at habs
  unfold abspath
  rw [if_neg (by decide)]
  rcases cwd_split habs hnorm with h1 | h1 | ⟨hA, hlast⟩
  · rw [h1]; decide
  · rw [h1]; decide
  · have hj : joinPath cwd (lc (r".")) = cwd ++ slashChar :: lc (r".") := by
      unfold joinPath
      rw [if_neg (by decide), if_neg hcne, if_neg hlast]
    rw [hj, normpath_cwd_append habs hnorm hA _ (by decide), normStep_dot]
    exact (cwd_structure habs hnorm).symm

theorem normpath_joinPath_good {cwd name : List Char} (habs : isAbs cwd = true)
    (hnorm : normpath cwd = cwd) (hns : noSlash name = true)
    (hgood : goodComp name = true) :
    normpath (joinPath cwd name) = joinPath cwd name := by
  have hcne : cwd ≠ [] := by
    intro he; rw [he] at habs; simp [isAbs] at habs
  obtain ⟨nh, nt, rfl⟩ : ∃ nh nt, name = nh :: nt := by
    cases name with
    | nil => exact absurd (beq_eq_false_iff_ne.mp (goodComp_spec hgood).1) (by simp)
    | cons nh nt => exact ⟨nh, nt, rfl⟩
  have hnabs : isAbs (nh :: nt) = false := by
    simp [isAbs, (noSlash_cons hns).1]
  rcases cwd_split habs hnorm with h1 | h1 | ⟨hA, hlast⟩
  · rw [h1]
    have hg1 : ([slashChar] : List Char).getLast? = some slashChar := rfl
    have hj : joinPath [slashChar] (nh :: nt) = slashChar :: nh :: nt := by
      unfold joinPath
      rw [if_neg (by simp [hnabs]), if_neg (by simp), if_pos hg1]
      rfl
    rw [hj]
    exact normpath_root_append hns hgood
  · rw [h1]
    have hg2 : ([slashChar, slashChar] : List Char).getLast? = some slashChar := rfl
    have hj : joinPath [slashChar, slashChar] (nh :: nt) =
        slashChar :: slashChar :: nh :: nt := by
      unfold joinPath
      rw [if_neg (by simp [hnabs]), if_neg (by simp), if_pos hg2]
      rfl
    rw [hj]
    exact normpath_rootroot_append hns hgood
  · have hj : joinPath cwd (nh :: nt) = cwd ++ slashChar :: (nh :: nt) := by
      unfold joinPath
      rw [if_neg (by simp [hnabs]), if_neg hcne, if_neg hlast]
    rw [hj, normpath_cwd_append habs hnorm hA _ hns, normStep_good true hgood,
      List.reverse_cons, ic_append_singleton _ _ hA]
    conv_rhs => rw [cwd_structure habs hnorm]
    rw [List.append_assoc]

theorem noSlash_append {a b : List Char} (ha : noSlash a = true)
    (hb : noSlash b = true) : noSlash (a ++ b) = true := by
  have ha' : a.all (fun d => !(d == slashChar)) = true := ha
  have hb' : b.all (fun d => !(d == slashChar)) = true := hb
  show (a ++ b).all (fun d => !(d == slashChar)) = true
  rw [List.all_append, ha', hb']
  rfl

theorem noSlash_take {b : List Char} (n : Nat) (hb : noSlash b = true) :
    noSlash (b.take n) = true := by
  have hb' : b.all (fun d => !(d == slashChar)) = true := hb
  show (b.take n).all (fun d => !(d == slashChar)) = true
  rw [List.all_eq_true]
  intro x hx
  exact List.all_eq_true.mp hb' x (List.mem_of_mem_take hx)

theorem noSlash_drop {b : List Char} (n : Nat) (hb : noSlash b = true) :
    noSlash (b.drop n) = true := by
  have hb' : b.all (fun d => !(d == slashChar)) = true := hb
  show (b.drop n).all (fun d => !(d == slashChar)) = true
  rw [List.all_eq_true]
  intro x hx
  exact List.all_eq_true.mp hb' x (List.mem_of_mem_drop hx)

theorem getLastD_noSlash : ∀ (l : List (List Char)) (d : List Char),
    (∀ x ∈ l, noSlash x = true) → noSlash d = true →
      noSlash (l.getLastD d) = true := by
  intro l
  induction l with
  | nil => intro d _ hd; exact hd
  | cons a l2 ih =>
    intro d hall _
    rw [List.getLastD_cons]
    exact ih a (fun x hx => hall x (List.mem_cons_of_mem a hx))
      (hall a (List.mem_cons_self a l2))

theorem basename_noSlash (p : List Char) : noSlash (basename p) = true := by
  unfold basename
  exact getLastD_noSlash (splitSlash p) [] (splitSlash_mem_noSlash p) rfl

theorem splitextP_noSlash {b : List Char} (hb : noSlash b = true) :
    noSlash (splitextP b).1 = true ∧ noSlash (splitextP b).2 = true := by
  unfold splitextP
  cases hfi : b.reverse.findIdx? (fun c => c == ('.' : Char)) with
  | none => exact ⟨hb, rfl⟩
  | some j =>
    by_cases hall : (b.take (b.length - 1 - j)).all (fun c => c == ('.' : Char)) = true
    · simp only [hall]
      simp
      exact ⟨hb, rfl⟩
    · have hall' : (b.take (b.length - 1 - j)).all (fun c => c == ('.' : Char)) = false :=
        Bool.eq_false_iff.mpr hall
      simp only [hall']
      simp
      exact ⟨noSlash_take _ hb, noSlash_drop _ hb⟩

theorem splitExtSpecial_noSlash {b : List Char} (hb : noSlash b = true) :
    noSlash (splitExtSpecial b).1 = true ∧ noSlash (splitExtSpecial b).2 = true := by
  unfold splitExtSpecial
  by_cases h1 : (startsWith (lc (r".nii.gz")).reverse b.reverse &&
      decide ((lc (r".nii.gz")).length < b.length)) = true
  · rw [if_pos h1]
    exact ⟨noSlash_take _ hb, noSlash_drop _ hb⟩
  · rw [if_neg h1]
    exact splitextP_noSlash hb

theorem presuffixedName_noSlash (v : List Char) :
    noSlash (presuffixedName v (lc (r"_diffeoxfmd"))) = true := by
  obtain ⟨h1, h2⟩ := splitExtSpecial_noSlash (basename_noSlash v)
  unfold presuffixedName
  exact noSlash_append (noSlash_append h1 (by decide)) h2

theorem presuffixedName_good (v : List Char) :
    goodComp (presuffixedName v (lc (r"_diffeoxfmd"))) = true := by
  have hlen : 11 ≤ (presuffixedName v (lc (r"_diffeoxfmd"))).length := by
    unfold presuffixedName
    have e1 : (lc (r"_diffeoxfmd")).length = 11 := by decide
    simp [List.length_append, e1]
    omega
  have h1 : ¬presuffixedName v (lc (r"_diffeoxfmd")) = [] := by
    intro he; rw [he] at hlen; simp at hlen
  have h2 : ¬presuffixedName v (lc (r"_diffeoxfmd")) = lc (r".") := by
    intro he
    rw [he] at hlen
    have e2 : (lc (r".")).length = 1 := by decide
    rw [e2] at hlen
    omega
  have h3 : ¬presuffixedName v (lc (r"_diffeoxfmd")) = lc (r"..") := by
    intro he
    rw [he] at hlen
    have e3 : (lc (r"..")).length = 2 := by decide
    rw [e3] at hlen
    omega
  unfold goodComp
  rw [beq_eq_false_iff_ne.mpr h1, beq_eq_false_iff_ne.mpr h2,
    beq_eq_false_iff_ne.mpr h3]
  rfl

example :
    joinPath (lc (r"/tmp")) (presuffixedName (lc (r"dir/fa.nii.gz")) (lc (r"_diffeoxfmd"))) =
      lc (r"/tmp/fa_diffeoxfmd.nii.gz") := by decide

/-- C7: when out_path is Undefined and in_volume is set,
diffeoScalarVolTask._list_outputs returns out_file equal to the absolute
path, under the current working directory, of in_volume's base name with
the suffix _diffeoxfmd inserted between its stem and its file extension;
when out_path is set it returns the absolute path of out_path
(registration.py lines 341-348).  The working directory is as returned by
the operating system: absolute and already normalised. -/
theorem diffeo_scalar_vol_output_path_prediction
    (cwd : List Char) (inp : diffeoScalarVolInputSpec) (v p : List Char)
    (habs : isAbs cwd = true) (hnorm : normpath cwd = cwd) :
    (inp.out_path = none → inp.in_volume = some v →
      (diffeoScalarVolTask.listOutputs cwd inp).2 =
        PyOutcome.ok
          { out_file :=
              some (joinPath cwd (presuffixedName v (lc (r"_diffeoxfmd")))) }) ∧
    (inp.out_path = some p →
      (diffeoScalarVolTask.listOutputs cwd inp).2 =
        PyOutcome.ok { out_file := some (abspath cwd p) }) := by
  constructor
  · intro hp hv
    have hdot : abspath cwd (lc (r".")) = cwd := abspath_dot habs hnorm
    have hdef : dsvDefaultOut cwd v =
        joinPath cwd (presuffixedName v (lc (r"_diffeoxfmd"))) := by
      unfold dsvDefaultOut fnamePresuffix
      rw [hdot]
    have habs3 : isAbs (joinPath cwd (presuffixedName v (lc (r"_diffeoxfmd")))) = true :=
      isAbs_joinPath _ habs
    have hfinal : abspath cwd (dsvDefaultOut cwd v) =
        joinPath cwd (presuffixedName v (lc (r"_diffeoxfmd"))) := by
      rw [hdef]
      unfold abspath
      rw [if_pos habs3]
      exact normpath_joinPath_good habs hnorm (presuffixedName_noSlash v)
        (presuffixedName_good v)
    unfold diffeoScalarVolTask.listOutputs
    simp only [hp, hv]
    rw [hfinal]
  · intro hp
    unfold diffeoScalarVolTask.listOutputs
    simp only [hp]

theorem diffeo_scalar_vol_output_path_prediction_witness :
    (diffeoScalarVolTask.listOutputs (lc (r"/tmp"))
        ⟨some (lc (r"fa.nii.gz")), none, none, none, none, none, none, none⟩).2 =
      PyOutcome.ok { out_file := some (joinPath (lc (r"/tmp"))
        (presuffixedName (lc (r"fa.nii.gz")) (lc (r"_diffeoxfmd")))) } :=
  (diffeo_scalar_vol_output_path_prediction (lc (r"/tmp"))
    ⟨some (lc (r"fa.nii.gz")), none, none, none, none, none, none, none⟩
    (lc (r"fa.nii.gz")) [] (by decide) (by decide)).1 rfl rfl
